import Mathlib

/-!
Shallow embedding of the Exbana grammar-combinator engine (Go), latest (v2)
iteration: the generic Pattern implementations found in
patterns/entity, patterns/vector, patterns/concatenation, patterns/alternation
(Alternation and Repetition), patterns/exception and patterns/end, together
with the runes Reader and the Scan driver from exbana.go, plus theorems that
check the specification claims about them.

Positions are modelled by the rune index of the runes Reader: its Line/Col
fields are functions of the index for every position the matcher ever stores
(positions are only obtained from Position() and fed back to SetPosition), and
only the index enters Finished, Range, Length and the bounds checks.
-/

namespace Exbana

/-- Errors returned by reader operations.  io.EOF is a distinguished value
that IsStreamError does not treat as a stream error; the other constructors
model the fmt.Errorf failures of the runes Reader (the bounds checks of
Range and SetPosition). -/
inductive Err where
  | eof : Err
  | rangeErr (p1 p2 : Nat) : Err
  | posErr (p : Nat) : Err
  deriving DecidableEq, Repr

/-- IsStreamError from exbana.go: an error is a stream error iff it is set and
is not io.EOF. -/
def Err.isStream : Err → Bool
  | .eof => false
  | _ => true

/-- IsStreamError lifted to the optional error of a Go (value, error) pair. -/
def isStreamError : Option Err → Bool
  | none => false
  | some e => e.isStream

/-- The runes Reader: an immutable slice of tokens addressed by index.  The
mutable cursor is threaded separately through the matcher as a plain index. -/
structure Reader (T : Type) where
  data : List T

variable {T : Type}

/-- Read1 of the runes Reader: return the token under the cursor and advance,
or return the zero value of the token type together with io.EOF at end of
input (the cursor does not move). -/
def Reader.read1 [Inhabited T] (rd : Reader T) (pos : Nat) : T × Nat × Option Err :=
  if h : pos < rd.data.length then (rd.data.get ⟨pos, h⟩, pos + 1, none)
  else (default, pos, some .eof)

/-- Finished of the runes Reader: the cursor is at or past the end. -/
def Reader.finished (rd : Reader T) (pos : Nat) : Bool :=
  rd.data.length ≤ pos

/-- SetPosition of the runes Reader: fails with an error when the target index
is out of bounds, otherwise the new cursor is the target itself (so only the
error component needs to be returned). -/
def Reader.setPos (rd : Reader T) (p : Nat) : Option Err :=
  if rd.data.length < p then some (.posErr p) else none

/-- Range of the runes Reader: the tokens between two positions, or an error
when either index is out of bounds (note the asymmetric check taken from the
source: p1 must be a valid index while p2 may be the length). -/
def Reader.rangeVal (rd : Reader T) (p1 p2 : Nat) : Except Err (List T) :=
  if rd.data.length ≤ p1 ∨ rd.data.length < p2 then .error (.rangeErr p1 p2)
  else .ok ((rd.data.drop p1).take (p2 - p1))

/-- Length of the runes Reader: the signed index difference p2 - p1. -/
def Reader.lengthI (p1 p2 : Nat) : Int :=
  (p2 : Int) - (p1 : Int)

/-- Skip(1) of the runes Reader as used by Scan: advance one token, or report
io.EOF without moving when already at the end. -/
def Reader.skip1 (rd : Reader T) (pos : Nat) : Nat × Option Err :=
  if pos < rd.data.length then (pos + 1, none) else (pos, some .eof)

/-- The seven pattern variants of the v2 iteration.  Alternation carries its
isOrthogonal flag; Repetition carries min and max (the repo only ever builds
repetitions with non-negative literal bounds, so they are naturals here). -/
inductive Pattern (T : Type) : Type where
  | Entity (matchFunc : T → Bool) : Pattern T
  | Vector (eq : T → T → Bool) (vec : List T) : Pattern T
  | Concatenation (patterns : List (Pattern T)) : Pattern T
  | Alternation (isOrthogonal : Bool) (patterns : List (Pattern T)) : Pattern T
  | Repetition (pattern : Pattern T) (min max : Nat) : Pattern T
  | Exception (must exception : Pattern T) : Pattern T
  | End : Pattern T

/-- The Match tree: the pattern that produced it, a begin and end position, an
optional captured value and the ordered component matches. -/
inductive Match (T : Type) : Type where
  | mk (pat : Pattern T) (Begin End : Nat) (value : Option (List T))
      (components : List (Match T)) : Match T

def Match.Pattern : Match T → Pattern T
  | .mk p _ _ _ _ => p

def Match.Begin : Match T → Nat
  | .mk _ b _ _ _ => b

def Match.End : Match T → Nat
  | .mk _ _ e _ _ => e

def Match.value : Match T → Option (List T)
  | .mk _ _ _ v _ => v

def Match.components : Match T → List (Match T)
  | .mk _ _ _ _ cs => cs

/-- A Mismatch diagnostic record: pattern, begin and end position, an optional
sub-mismatch evidence Match and the sub-matches collected so far. -/
structure Mismatch (T : Type) where
  pat : Pattern T
  Begin : Nat
  End : Nat
  subMismatch : Option (Match T)
  subMatches : List (Match T)

/-- The result of one Match call: the Go (matched, *Match, error) triple
together with the reader position after the call and the Mismatch records
logged during the call, in order (as collected by a StackLog attached to
every pattern). -/
structure MRes (T : Type) where
  ok : Bool
  res : Option (Match T)
  err : Option Err
  pos : Nat
  log : List (Mismatch T)

/-- The inner loop of Vector.Match: read and compare one token at a time,
stopping at the first stream error or first unequal token.  Returns the
cursor, the error if any, and whether every token compared equal. -/
def vecLoop [Inhabited T] (rd : Reader T) (eq : T → T → Bool) :
    List T → Nat → Nat × Option Err × Bool
  | [], pos => (pos, none, true)
  | e1 :: rest, pos =>
    if isStreamError (rd.read1 pos).2.2 then ((rd.read1 pos).2.1, (rd.read1 pos).2.2, false)
    else if eq e1 (rd.read1 pos).1 then vecLoop rd eq rest (rd.read1 pos).2.1
    else ((rd.read1 pos).2.1, none, false)

/-- The candidate-selection loop of Alternation.Match: running best match and
running best length, started at -1, replaced on strictly greater length (so
the earliest candidate of maximal length survives). -/
def pickLongestAux : List (Match T) → Option (Match T) → Int → Option (Match T)
  | [], best, _ => best
  | m :: rest, best, len =>
    if Reader.lengthI m.Begin m.End > len then
      pickLongestAux rest (some m) (Reader.lengthI m.Begin m.End)
    else pickLongestAux rest best len

/-- Candidate selection of Alternation.Match over the collected candidates. -/
def pickLongest (ms : List (Match T)) : Option (Match T) :=
  pickLongestAux ms none (-1)

/-- The child loop of Concatenation.Match: each child is attempted at the
current position; a child error is returned unchanged; a child mismatch logs
a Mismatch (carrying the failing child's empty match attempt and the matches
collected so far) and fails without rewinding; when all children match the
Concatenation succeeds with the collected component matches. -/
def concatLoop (recur : Pattern T → Reader T → Nat → Option (MRes T)) (rd : Reader T)
    (self : Pattern T) (bp : Nat) :
    List (Pattern T) → Nat → List (Match T) → List (Mismatch T) → Option (MRes T)
  | [], pos, acc, log => some ⟨true, some (.mk self bp pos none acc), none, pos, log⟩
  | c :: rest, pos, acc, log =>
    match recur c rd pos with
    | none => none
    | some cr =>
      if cr.err.isSome then some ⟨false, none, cr.err, cr.pos, log ++ cr.log⟩
      else if cr.ok then
        concatLoop recur rd self bp rest cr.pos (acc ++ cr.res.toList) (log ++ cr.log)
      else
        some ⟨false, none, none, cr.pos,
          log ++ cr.log ++ [⟨self, bp, cr.pos, some (.mk c pos cr.pos none []), acc⟩]⟩

/-- The child loop of Alternation.Match (the patterns/end iteration, the one
with the orthogonal short-circuit and the -1 initial best length): every child
is attempted from the alternation's start; matching children are recorded as
wrapped candidates; after the loop the earliest longest candidate is selected
and the stream is repositioned to its end, while with no candidate a Mismatch
is logged and the match fails without further repositioning. -/
def altLoop (recur : Pattern T → Reader T → Nat → Option (MRes T)) (rd : Reader T)
    (self : Pattern T) (ortho : Bool) (bp : Nat) :
    List (Pattern T) → Nat → List (Match T) → List (Mismatch T) → Option (MRes T)
  | [], pos, cands, log =>
    if cands.isEmpty then
      some ⟨false, none, none, pos, log ++ [⟨self, bp, pos, none, []⟩]⟩
    else
      match pickLongest cands with
      | some w =>
        match rd.setPos w.End with
        | some e => some ⟨false, none, some e, pos, log⟩
        | none => some ⟨true, some w, none, w.End, log⟩
      | none => some ⟨true, none, none, pos, log⟩
  | c :: rest, pos, cands, log =>
    match rd.setPos bp with
    | some e => some ⟨false, none, some e, pos, log⟩
    | none =>
      match recur c rd bp with
      | none => none
      | some cr =>
        if cr.err.isSome then some ⟨false, none, cr.err, cr.pos, log ++ cr.log⟩
        else if cr.ok then
          if ortho then
            some ⟨true, some (.mk self bp cr.pos none cr.res.toList), none, cr.pos,
              log ++ cr.log⟩
          else
            altLoop recur rd self ortho bp rest cr.pos
              (cands ++ [.mk self bp cr.pos none cr.res.toList]) (log ++ cr.log)
        else altLoop recur rd self ortho bp rest cr.pos cands (log ++ cr.log)

/-- Outcome of the Repetition.Match loop: an early (false, nil, err) return,
or normal loop exit with the final cursor and the accumulated matches. -/
inductive RepOut (T : Type) where
  | errStop (pos : Nat) (err : Option Err) (log : List (Mismatch T)) : RepOut T
  | done (pos : Nat) (acc : List (Match T)) (log : List (Mismatch T)) : RepOut T

/-- The loop of Repetition.Match: stop at end of input; record the position,
attempt the child; propagate a child error; on a child mismatch restore the
recorded position and stop; on a child match append it and stop once max
matches are collected when max is non-zero.  The first argument is loop fuel
(the Go loop can run forever when the child repeatedly matches zero tokens
and max is 0; none reports fuel exhaustion, never a result). -/
def repLoop (recur : Pattern T → Reader T → Nat → Option (MRes T)) (rd : Reader T)
    (child : Pattern T) (mx : Nat) :
    Nat → Nat → List (Match T) → List (Mismatch T) → Option (RepOut T)
  | 0, _, _, _ => none
  | k + 1, pos, acc, log =>
    if rd.finished pos then some (.done pos acc log)
    else
      match recur child rd pos with
      | none => none
      | some cr =>
        if cr.err.isSome then some (.errStop cr.pos cr.err (log ++ cr.log))
        else if cr.ok then
          if mx ≠ 0 ∧ (acc ++ cr.res.toList).length = mx then
            some (.done cr.pos (acc ++ cr.res.toList) (log ++ cr.log))
          else repLoop recur rd child mx k cr.pos (acc ++ cr.res.toList) (log ++ cr.log)
        else
          match rd.setPos pos with
          | some e => some (.errStop cr.pos (some e) (log ++ cr.log))
          | none => some (.done pos acc (log ++ cr.log))

/-- One level of Match dispatch over the seven pattern variants, with child
calls going through the supplied recursion function; n is the fuel handed to
the Repetition loop. -/
def matchStep [Inhabited T] (n : Nat) (recur : Pattern T → Reader T → Nat → Option (MRes T))
    (p : Pattern T) (rd : Reader T) (pos : Nat) : Option (MRes T) :=
  match p with
  | .Entity f =>
    if isStreamError (rd.read1 pos).2.2 then
      some ⟨false, none, (rd.read1 pos).2.2, (rd.read1 pos).2.1, []⟩
    else if f (rd.read1 pos).1 then
      match rd.rangeVal pos (rd.read1 pos).2.1 with
      | .error e => some ⟨false, none, some e, (rd.read1 pos).2.1, []⟩
      | .ok val =>
        some ⟨true, some (.mk p pos (rd.read1 pos).2.1 (some val) []), none, (rd.read1 pos).2.1, []⟩
    else some ⟨false, none, none, (rd.read1 pos).2.1, [⟨p, pos, (rd.read1 pos).2.1, none, []⟩]⟩
  | .Vector eq vec =>
    match vecLoop rd eq vec pos with
    | (pos1, some e, _) => some ⟨false, none, some e, pos1, []⟩
    | (pos1, none, false) => some ⟨false, none, none, pos1, [⟨p, pos, pos1, none, []⟩]⟩
    | (pos1, none, true) =>
      match rd.rangeVal pos pos1 with
      | .error e => some ⟨false, none, some e, pos1, []⟩
      | .ok val => some ⟨true, some (.mk p pos pos1 (some val) []), none, pos1, []⟩
  | .Concatenation ps => concatLoop recur rd p pos ps pos [] []
  | .Alternation ortho ps => altLoop recur rd p ortho pos ps pos [] []
  | .Repetition c mn mx =>
    match repLoop recur rd c mx n pos [] [] with
    | none => none
    | some (.errStop pos1 e log) => some ⟨false, none, e, pos1, log⟩
    | some (.done pos1 acc log) =>
      if acc.length < mn then
        some ⟨false, none, none, pos1, log ++ [⟨p, pos, pos1, none, acc⟩]⟩
      else some ⟨true, some (.mk p pos pos1 none acc), none, pos1, log⟩
  | .Exception must exc =>
    match recur exc rd pos with
    | none => none
    | some er =>
      if er.err.isSome then some ⟨false, none, er.err, er.pos, er.log⟩
      else if er.ok then
        some ⟨false, none, none, er.pos, er.log ++ [⟨p, pos, er.pos, er.res, []⟩]⟩
      else
        match rd.setPos pos with
        | some e => some ⟨false, none, some e, er.pos, er.log⟩
        | none =>
          match recur must rd pos with
          | none => none
          | some mr => some ⟨mr.ok, mr.res, mr.err, mr.pos, er.log ++ mr.log⟩
  | .End =>
    if rd.finished pos then some ⟨true, some (.mk p pos pos none []), none, pos, []⟩
    else some ⟨false, none, none, pos, [⟨p, pos, pos, none, []⟩]⟩

/-- Pattern.Match with fuel: none means the fuel ran out before the source
program would have returned; some r is exactly what the Go code returns. -/
def matchF [Inhabited T] : Nat → Pattern T → Reader T → Nat → Option (MRes T)
  | 0, _, _, _ => none
  | n + 1, p, rd, pos => matchStep n (fun q r s => matchF n q r s) p rd pos

/-- The Scan driver from exbana.go with loop fuel: while the reader is not
finished, record the position and attempt the root pattern; propagate an
error; on success append the Match and continue from its end; on failure
reset to the recorded position and skip one token. -/
def scanF [Inhabited T] (mfuel : Nat) (p : Pattern T) (rd : Reader T) :
    Nat → Nat → List (Match T) → Option (Except Err (List (Match T)) × Nat)
  | 0, _, _ => none
  | k + 1, pos, acc =>
    if rd.finished pos then some (.ok acc, pos)
    else
      match matchF mfuel p rd pos with
      | none => none
      | some r =>
        match r.err with
        | some e => some (.error e, r.pos)
        | none =>
          if r.ok then scanF mfuel p rd k r.pos (acc ++ r.res.toList)
          else
            match rd.setPos pos with
            | some e => some (.error e, r.pos)
            | none =>
              match rd.skip1 pos with
              | (pos2, some e) =>
                if e.isStream then some (.error e, pos2)
                else scanF mfuel p rd k pos2 acc
              | (pos2, none) => scanF mfuel p rd k pos2 acc

/-- Consumed length of a Match, as Alternation computes it through the
reader's Length function. -/
def mlen (m : Match T) : Int :=
  Reader.lengthI m.Begin m.End

theorem matchF_succ [Inhabited T] (n : Nat) (p : Pattern T) (rd : Reader T) (pos : Nat) :
    matchF (n + 1) p rd pos = matchStep n (fun q r s => matchF n q r s) p rd pos :=
  rfl

theorem read1_lt [Inhabited T] (rd : Reader T) (pos : Nat) (h : pos < rd.data.length) :
    rd.read1 pos = (rd.data.get ⟨pos, h⟩, pos + 1, none) := by
  simp [Reader.read1, h]

theorem read1_ge [Inhabited T] (rd : Reader T) (pos : Nat) (h : ¬ pos < rd.data.length) :
    rd.read1 pos = (default, pos, some .eof) := by
  simp [Reader.read1, h]

theorem setPos_le (rd : Reader T) (p : Nat) (h : p ≤ rd.data.length) :
    rd.setPos p = none := by
  simp [Reader.setPos]
  omega

theorem finished_iff (rd : Reader T) (pos : Nat) :
    rd.finished pos = true ↔ rd.data.length ≤ pos := by
  simp [Reader.finished]

theorem rangeVal_ok (rd : Reader T) (p1 p2 : Nat) (h1 : p1 < rd.data.length)
    (h2 : p2 ≤ rd.data.length) :
    rd.rangeVal p1 p2 = .ok ((rd.data.drop p1).take (p2 - p1)) := by
  simp only [Reader.rangeVal]
  rw [if_neg]
  push_neg
  omega

theorem isStreamError_none : isStreamError (none : Option Err) = false := rfl

theorem isStreamError_eof : isStreamError (some Err.eof) = false := rfl

theorem pickLongestAux_some (rest : List (Match T)) (b : Match T) :
    ∃ w, pickLongestAux rest (some b) (mlen b) = some w ∧
      ((w = b ∧ ∀ m ∈ rest, mlen m ≤ mlen b) ∨
       (∃ pre post, rest = pre ++ w :: post ∧ mlen b < mlen w ∧
          (∀ m ∈ pre, mlen m < mlen w) ∧ (∀ m ∈ rest, mlen m ≤ mlen w))) := by
  induction rest generalizing b with
  | nil =>
    exact ⟨b, rfl, .inl ⟨rfl, by simp⟩⟩
  | cons m rest ih =>
    by_cases hgt : mlen b < mlen m
    · obtain ⟨w, hw, hcase⟩ := ih m
      refine ⟨w, ?_, ?_⟩
      · simp only [pickLongestAux, mlen]
        split
        · exact hw
        · next hcon => exact absurd hgt hcon
      · right
        rcases hcase with ⟨hwb, hall⟩ | ⟨pre, post, hsplit, hlt, hpre, hall⟩
        · subst hwb
          refine ⟨[], rest, rfl, hgt, by simp, ?_⟩
          intro x hx
          rcases List.mem_cons.mp hx with hx | hx
          · subst hx; exact le_refl _
          · exact hall x hx
        · refine ⟨m :: pre, post, by rw [hsplit, List.cons_append], lt_trans hgt hlt, ?_, ?_⟩
          · intro x hx
            rcases List.mem_cons.mp hx with hx | hx
            · subst hx; exact hlt
            · exact hpre x hx
          · intro x hx
            rcases List.mem_cons.mp hx with hx | hx
            · subst hx; exact le_of_lt hlt
            · exact hall x hx
    · obtain ⟨w, hw, hcase⟩ := ih b
      refine ⟨w, ?_, ?_⟩
      · simp only [pickLongestAux, mlen]
        split
        · next hcon => exact absurd hcon hgt
        · exact hw
      · rcases hcase with ⟨hwb, hall⟩ | ⟨pre, post, hsplit, hlt, hpre, hall⟩
        · left
          refine ⟨hwb, ?_⟩
          intro x hx
          rcases List.mem_cons.mp hx with hx | hx
          · subst hx; omega
          · exact hall x hx
        · right
          refine ⟨m :: pre, post, by rw [hsplit, List.cons_append], hlt, ?_, ?_⟩
          · intro x hx
            rcases List.mem_cons.mp hx with hx | hx
            · subst hx; omega
            · exact hpre x hx
          · intro x hx
            rcases List.mem_cons.mp hx with hx | hx
            · subst hx; omega
            · exact hall x hx

/-- Specification of candidate selection: the winner exists, it sits at a
position before which every candidate is strictly shorter, and no candidate
anywhere is longer — the earliest candidate of maximal consumed length. -/
theorem pickLongest_spec (ms : List (Match T)) (hne : ms ≠ [])
    (hnn : ∀ m ∈ ms, 0 ≤ mlen m) :
    ∃ w pre post, pickLongest ms = some w ∧ ms = pre ++ w :: post ∧
      (∀ m ∈ ms, mlen m ≤ mlen w) ∧ (∀ m ∈ pre, mlen m < mlen w) := by
  match ms, hne with
  | m :: rest, _ =>
    have h0 : (0 : Int) ≤ mlen m := hnn m (by simp)
    have hpick : pickLongest (m :: rest) = pickLongestAux rest (some m) (mlen m) := by
      simp only [pickLongest, pickLongestAux, mlen]
      split
      · rfl
      · next hcon => simp only [mlen] at h0; omega
    obtain ⟨w, hw, hcase⟩ := pickLongestAux_some rest m
    rcases hcase with ⟨hwb, hall⟩ | ⟨pre, post, hsplit, hlt, hpre, hall⟩
    · subst hwb
      refine ⟨w, [], rest, by rw [hpick]; exact hw, rfl, ?_, by simp⟩
      intro x hx
      rcases List.mem_cons.mp hx with hx | hx
      · subst hx; exact le_refl _
      · exact hall x hx
    · refine ⟨w, m :: pre, post, by rw [hpick]; exact hw, by rw [hsplit, List.cons_append], ?_, ?_⟩
      · intro x hx
        rcases List.mem_cons.mp hx with hx | hx
        · subst hx; exact le_of_lt hlt
        · exact hall x hx
      · intro x hx
        rcases List.mem_cons.mp hx with hx | hx
        · subst hx; exact hlt
        · exact hpre x hx

/-- Invariant of a single Match call started at a given position: the final
cursor stays in bounds, an error reply carries no match, and a success reply
carries a Match that spans from the start position to the final cursor. -/
def MInv (rd : Reader T) (pos : Nat) (r : MRes T) : Prop :=
  r.pos ≤ rd.data.length ∧
  (r.err ≠ none → r.ok = false ∧ r.res = none) ∧
  (r.ok = true → r.err = none ∧ ∃ m, r.res = some m ∧
    m.Begin = pos ∧ m.End = r.pos ∧ pos ≤ r.pos)

/-- Invariant hypothesis on the recursion function handed to the loops. -/
def GoodRec (rd : Reader T) (recur : Pattern T → Reader T → Nat → Option (MRes T)) : Prop :=
  ∀ q pos r, pos ≤ rd.data.length → recur q rd pos = some r → MInv rd pos r

theorem vecLoop_inv [Inhabited T] (rd : Reader T) (eq : T → T → Bool) :
    ∀ (vec : List T) (pos : Nat), pos ≤ rd.data.length →
      pos ≤ (vecLoop rd eq vec pos).1 ∧ (vecLoop rd eq vec pos).1 ≤ rd.data.length := by
  intro vec
  induction vec with
  | nil =>
    intro pos h
    exact ⟨le_refl pos, h⟩
  | cons e1 rest ih =>
    intro pos h
    by_cases hlt : pos < rd.data.length
    · simp only [vecLoop, read1_lt rd pos hlt, isStreamError, Bool.false_eq_true, if_false]
      by_cases heq : eq e1 (rd.data.get ⟨pos, hlt⟩) = true
      · simp only [heq, if_true]
        have := ih (pos + 1) hlt
        exact ⟨le_trans (Nat.le_succ pos) this.1, this.2⟩
      · simp only [heq, if_false]
        exact ⟨Nat.le_succ pos, hlt⟩
    · simp only [vecLoop, read1_ge rd pos hlt, isStreamError, Err.isStream,
        Bool.false_eq_true, if_false]
      by_cases heq : eq e1 default = true
      · simp only [heq, if_true]
        exact ih pos h
      · simp only [heq, if_false]
        exact ⟨le_refl pos, h⟩

theorem concatLoop_inv (recur : Pattern T → Reader T → Nat → Option (MRes T)) (rd : Reader T)
    (self : Pattern T) (bp : Nat) (Hrec : GoodRec rd recur) :
    ∀ (ps : List (Pattern T)) (pos : Nat) (acc : List (Match T)) (log : List (Mismatch T))
      (r : MRes T), pos ≤ rd.data.length → bp ≤ pos →
      concatLoop recur rd self bp ps pos acc log = some r → MInv rd bp r := by
  intro ps
  induction ps with
  | nil =>
    intro pos acc log r hp hb hrun
    simp only [concatLoop, Option.some.injEq] at hrun
    subst hrun
    exact ⟨hp, fun hcon => absurd rfl hcon, fun _ => ⟨rfl, _, rfl, rfl, rfl, hb⟩⟩
  | cons c rest ih =>
    intro pos acc log r hp hb hrun
    simp only [concatLoop] at hrun
    split at hrun
    · exact absurd hrun (by simp)
    · rename_i cr hcr
      have hinv := Hrec c pos cr hp hcr
      split at hrun
      · rename_i he
        rw [Option.some.injEq] at hrun
        subst hrun
        exact ⟨hinv.1, fun _ => ⟨rfl, rfl⟩, fun hok => by simp at hok⟩
      · rename_i he
        split at hrun
        · rename_i ho
          obtain ⟨-, m, hres, hB, hE, hle⟩ := hinv.2.2 ho
          exact ih cr.pos _ _ r hinv.1 (le_trans hb hle) hrun
        · rename_i ho
          rw [Option.some.injEq] at hrun
          subst hrun
          exact ⟨hinv.1, fun hcon => absurd rfl hcon, fun hok => by simp at hok⟩

/-- Invariant on the candidate list built by the Alternation loop: every
candidate starts at the alternation's begin position and ends at an
in-bounds position not before it. -/
def CandsOK (rd : Reader T) (bp : Nat) (cands : List (Match T)) : Prop :=
  ∀ m ∈ cands, m.Begin = bp ∧ bp ≤ m.End ∧ m.End ≤ rd.data.length

theorem altLoop_inv (recur : Pattern T → Reader T → Nat → Option (MRes T)) (rd : Reader T)
    (self : Pattern T) (ortho : Bool) (bp : Nat) (Hrec : GoodRec rd recur)
    (hbp : bp ≤ rd.data.length) :
    ∀ (ps : List (Pattern T)) (pos : Nat) (cands : List (Match T)) (log : List (Mismatch T))
      (r : MRes T), pos ≤ rd.data.length → CandsOK rd bp cands →
      altLoop recur rd self ortho bp ps pos cands log = some r → MInv rd bp r := by
  intro ps
  induction ps with
  | nil =>
    intro pos cands log r hp hc hrun
    simp only [altLoop] at hrun
    split at hrun
    · rw [Option.some.injEq] at hrun
      subst hrun
      exact ⟨hp, fun hcon => absurd rfl hcon, fun hok => by simp at hok⟩
    · rename_i hemp
      have hne : cands ≠ [] := by
        intro hnil
        subst hnil
        exact hemp rfl
      have hnn : ∀ m ∈ cands, 0 ≤ mlen m := by
        intro m hm
        have h := hc m hm
        simp only [mlen, Reader.lengthI]
        omega
      obtain ⟨w, pre, post, hpk, hsplit, hmax, hpre⟩ := pickLongest_spec cands hne hnn
      have hwmem : w ∈ cands := by
        rw [hsplit]
        exact List.mem_append.mpr (Or.inr (List.mem_cons_self _ _))
      have hw := hc w hwmem
      rw [hpk] at hrun
      simp only [setPos_le rd w.End hw.2.2, Option.some.injEq] at hrun
      subst hrun
      exact ⟨hw.2.2, fun hcon => absurd rfl hcon, fun _ => ⟨rfl, w, rfl, hw.1, rfl, hw.2.1⟩⟩
  | cons c rest ih =>
    intro pos cands log r hp hc hrun
    simp only [altLoop, setPos_le rd bp hbp] at hrun
    split at hrun
    · exact absurd hrun (by simp)
    · rename_i cr hcr
      have hinv := Hrec c bp cr hbp hcr
      split at hrun
      · rename_i he
        rw [Option.some.injEq] at hrun
        subst hrun
        exact ⟨hinv.1, fun _ => ⟨rfl, rfl⟩, fun hok => by simp at hok⟩
      · rename_i he
        split at hrun
        · rename_i ho
          obtain ⟨-, m, hres, hB, hE, hle⟩ := hinv.2.2 ho
          split at hrun
          · rw [Option.some.injEq] at hrun
            subst hrun
            exact ⟨hinv.1, fun hcon => absurd rfl hcon, fun _ => ⟨rfl, _, rfl, rfl, rfl, hle⟩⟩
          · refine ih cr.pos _ _ r hinv.1 ?_ hrun
            intro x hx
            rcases List.mem_append.mp hx with hx | hx
            · exact hc x hx
            · rw [List.mem_singleton.mp hx]
              exact ⟨rfl, hle, hinv.1⟩
        · rename_i ho
          exact ih cr.pos _ _ r hinv.1 hc hrun

/-- Invariant carried by the Repetition loop outcome: the final cursor is in
bounds, and a normal loop exit never moves the cursor backwards. -/
def RepOutInv (rd : Reader T) (pos : Nat) : RepOut T → Prop
  | .errStop p1 _ _ => p1 ≤ rd.data.length
  | .done p1 _ _ => p1 ≤ rd.data.length ∧ pos ≤ p1

theorem repLoop_inv (recur : Pattern T → Reader T → Nat → Option (MRes T)) (rd : Reader T)
    (c : Pattern T) (mx : Nat) (Hrec : GoodRec rd recur) :
    ∀ (k pos : Nat) (acc : List (Match T)) (log : List (Mismatch T)) (out : RepOut T),
      pos ≤ rd.data.length → repLoop recur rd c mx k pos acc log = some out →
      RepOutInv rd pos out := by
  intro k
  induction k with
  | zero =>
    intro pos acc log out hp hrun
    simp [repLoop] at hrun
  | succ k ih =>
    intro pos acc log out hp hrun
    simp only [repLoop] at hrun
    split at hrun
    · rw [Option.some.injEq] at hrun
      subst hrun
      exact ⟨hp, le_refl pos⟩
    · rename_i hfin
      split at hrun
      · exact absurd hrun (by simp)
      · rename_i cr hcr
        have hinv := Hrec c pos cr hp hcr
        split at hrun
        · rename_i he
          rw [Option.some.injEq] at hrun
          subst hrun
          exact hinv.1
        · rename_i he
          split at hrun
          · rename_i ho
            obtain ⟨-, m, hres, hB, hE, hle⟩ := hinv.2.2 ho
            split at hrun
            · rw [Option.some.injEq] at hrun
              subst hrun
              exact ⟨hinv.1, hle⟩
            · have hih := ih cr.pos _ _ out hinv.1 hrun
              cases out with
              | errStop p1 e l => exact hih
              | done p1 a l => exact ⟨hih.1, le_trans hle hih.2⟩
          · rename_i ho
            rw [setPos_le rd pos hp] at hrun
            rw [Option.some.injEq] at hrun
            subst hrun
            exact ⟨hp, le_refl pos⟩

/-- Master invariant of the matcher: whatever fuel it is run with, a completed
Match call keeps the cursor in bounds, returns no Match alongside an error,
and on success returns a Match spanning from the start position to the final
cursor (so in particular Begin is at most End). -/
theorem matchF_inv [Inhabited T] :
    ∀ (n : Nat) (p : Pattern T) (rd : Reader T) (pos : Nat) (r : MRes T),
      pos ≤ rd.data.length → matchF n p rd pos = some r → MInv rd pos r := by
  intro n
  induction n with
  | zero =>
    intro p rd pos r _ hrun
    simp [matchF] at hrun
  | succ n ih =>
    intro p rd pos r hp hrun
    have Hrec : GoodRec rd (fun q rr s => matchF n q rr s) :=
      fun q pos r hq hr => ih q rd pos r hq hr
    rw [matchF_succ] at hrun
    cases p with
    | Entity f =>
      simp only [matchStep] at hrun
      by_cases hlt : pos < rd.data.length
      · rw [read1_lt rd pos hlt] at hrun
        simp only [isStreamError_none, Bool.false_eq_true, if_false] at hrun
        split at hrun
        · rw [rangeVal_ok rd pos (pos + 1) hlt hlt] at hrun
          rw [Option.some.injEq] at hrun
          subst hrun
          exact ⟨hlt, fun hcon => absurd rfl hcon,
            fun _ => ⟨rfl, _, rfl, rfl, rfl, Nat.le_succ pos⟩⟩
        · rw [Option.some.injEq] at hrun
          subst hrun
          exact ⟨hlt, fun hcon => absurd rfl hcon, fun hok => by simp at hok⟩
      · rw [read1_ge rd pos hlt] at hrun
        simp only [isStreamError_eof, Bool.false_eq_true, if_false] at hrun
        split at hrun
        · have hge : rd.data.length ≤ pos := Nat.not_lt.mp hlt
          have : rd.rangeVal pos pos = .error (.rangeErr pos pos) := by
            simp [Reader.rangeVal]
            omega
          rw [this] at hrun
          rw [Option.some.injEq] at hrun
          subst hrun
          exact ⟨hp, fun _ => ⟨rfl, rfl⟩, fun hok => by simp at hok⟩
        · rw [Option.some.injEq] at hrun
          subst hrun
          exact ⟨hp, fun hcon => absurd rfl hcon, fun hok => by simp at hok⟩
    | Vector eq vec =>
      simp only [matchStep] at hrun
      have hv := vecLoop_inv rd eq vec pos hp
      split at hrun
      · rename_i pos1 e b hveq
        rw [Option.some.injEq] at hrun
        subst hrun
        rw [hveq] at hv
        exact ⟨hv.2, fun _ => ⟨rfl, rfl⟩, fun hok => by simp at hok⟩
      · rename_i pos1 b hveq
        rw [Option.some.injEq] at hrun
        subst hrun
        rw [hveq] at hv
        exact ⟨hv.2, fun hcon => absurd rfl hcon, fun hok => by simp at hok⟩
      · rename_i pos1 hveq
        rw [hveq] at hv
        split at hrun
        · rw [Option.some.injEq] at hrun
          subst hrun
          exact ⟨hv.2, fun _ => ⟨rfl, rfl⟩, fun hok => by simp at hok⟩
        · rw [Option.some.injEq] at hrun
          subst hrun
          exact ⟨hv.2, fun hcon => absurd rfl hcon, fun _ => ⟨rfl, _, rfl, rfl, rfl, hv.1⟩⟩
    | Concatenation ps =>
      exact concatLoop_inv _ rd _ pos Hrec ps pos [] [] r hp (le_refl pos) hrun
    | Alternation ortho ps =>
      exact altLoop_inv _ rd _ ortho pos Hrec hp ps pos [] [] r hp (by intro m hm; cases hm) hrun
    | Repetition c mn mx =>
      simp only [matchStep] at hrun
      split at hrun
      · exact absurd hrun (by simp)
      · rename_i pos1 e log hrep
        have hout := repLoop_inv _ rd c mx Hrec n pos [] [] _ hp hrep
        rw [Option.some.injEq] at hrun
        subst hrun
        exact ⟨hout, fun _ => ⟨rfl, rfl⟩, fun hok => by simp at hok⟩
      · rename_i pos1 acc log hrep
        have hout := repLoop_inv _ rd c mx Hrec n pos [] [] _ hp hrep
        split at hrun
        · rw [Option.some.injEq] at hrun
          subst hrun
          exact ⟨hout.1, fun hcon => absurd rfl hcon, fun hok => by simp at hok⟩
        · rw [Option.some.injEq] at hrun
          subst hrun
          exact ⟨hout.1, fun hcon => absurd rfl hcon, fun _ => ⟨rfl, _, rfl, rfl, rfl, hout.2⟩⟩
    | Exception must exc =>
      simp only [matchStep] at hrun
      split at hrun
      · exact absurd hrun (by simp)
      · rename_i er her
        have hinv := ih exc rd pos er hp her
        split at hrun
        · rw [Option.some.injEq] at hrun
          subst hrun
          exact ⟨hinv.1, fun _ => ⟨rfl, rfl⟩, fun hok => by simp at hok⟩
        · split at hrun
          · rw [Option.some.injEq] at hrun
            subst hrun
            exact ⟨hinv.1, fun hcon => absurd rfl hcon, fun hok => by simp at hok⟩
          · simp only [setPos_le rd pos hp] at hrun
            split at hrun
            · exact absurd hrun (by simp)
            · rename_i mr hmr
              have hinvm := ih must rd pos mr hp hmr
              rw [Option.some.injEq] at hrun
              subst hrun
              exact ⟨hinvm.1, fun hcon => hinvm.2.1 hcon, fun hok => hinvm.2.2 hok⟩
    | End =>
      simp only [matchStep] at hrun
      split at hrun
      · rw [Option.some.injEq] at hrun
        subst hrun
        exact ⟨hp, fun hcon => absurd rfl hcon, fun _ => ⟨rfl, _, rfl, rfl, rfl, le_refl pos⟩⟩
      · rw [Option.some.injEq] at hrun
        subst hrun
        exact ⟨hp, fun hcon => absurd rfl hcon, fun hok => by simp at hok⟩

/-- The candidate list an Alternation run builds: for each child in order,
attempted from the alternation's start position, the wrapped candidate match
when the child matches; none when fuel ran out or a child returned an error. -/
def altCandidates (recur : Pattern T → Reader T → Nat → Option (MRes T)) (rd : Reader T)
    (self : Pattern T) (bp : Nat) : List (Pattern T) → Option (List (Match T))
  | [] => some []
  | c :: rest =>
    match recur c rd bp with
    | none => none
    | some cr =>
      if cr.err.isSome then none
      else
        match altCandidates recur rd self bp rest with
        | none => none
        | some cs =>
          some ((if cr.ok then [Match.mk self bp cr.pos none cr.res.toList] else []) ++ cs)

/-- The cursor position after the last attempted child of an Alternation run
in which no child error occurred: every child is attempted from the start
position and leaves the cursor wherever its Match call left it. -/
def lastAttemptPos (recur : Pattern T → Reader T → Nat → Option (MRes T)) (rd : Reader T)
    (bp : Nat) : List (Pattern T) → Nat → Option Nat
  | [], cur => some cur
  | c :: rest, _ =>
    match recur c rd bp with
    | none => none
    | some cr => if cr.err.isSome then none else lastAttemptPos recur rd bp rest cr.pos

theorem altCandidates_candsOK (recur : Pattern T → Reader T → Nat → Option (MRes T))
    (rd : Reader T) (self : Pattern T) (bp : Nat) (Hrec : GoodRec rd recur)
    (hbp : bp ≤ rd.data.length) :
    ∀ (ps : List (Pattern T)) (cs : List (Match T)),
      altCandidates recur rd self bp ps = some cs → CandsOK rd bp cs := by
  intro ps
  induction ps with
  | nil =>
    intro cs hcs
    simp only [altCandidates, Option.some.injEq] at hcs
    subst hcs
    intro m hm
    cases hm
  | cons c rest ih =>
    intro cs hcs
    simp only [altCandidates] at hcs
    split at hcs
    · exact absurd hcs (by simp)
    · rename_i cr hcr
      split at hcs
      · exact absurd hcs (by simp)
      · rename_i he
        split at hcs
        · exact absurd hcs (by simp)
        · rename_i cs' hcs'
          rw [Option.some.injEq] at hcs
          subst hcs
          have hinv := Hrec c bp cr hbp hcr
          intro m hm
          rcases List.mem_append.mp hm with hm | hm
          · split at hm
            · rename_i ho
              obtain ⟨-, mm, hres, hB, hE, hle⟩ := hinv.2.2 ho
              rw [List.mem_singleton.mp hm]
              exact ⟨rfl, hle, hinv.1⟩
            · cases hm
          · exact ih cs' hcs' m hm

theorem altCandidates_ne_nil (recur : Pattern T → Reader T → Nat → Option (MRes T))
    (rd : Reader T) (self : Pattern T) (bp : Nat) :
    ∀ (ps : List (Pattern T)) (cs : List (Match T)) (q : Pattern T) (cr : MRes T),
      altCandidates recur rd self bp ps = some cs → q ∈ ps →
      recur q rd bp = some cr → cr.ok = true → cs ≠ [] := by
  intro ps
  induction ps with
  | nil =>
    intro cs q cr _ hq
    cases hq
  | cons c rest ih =>
    intro cs q cr hcs hq hrec hok
    simp only [altCandidates] at hcs
    split at hcs
    · exact absurd hcs (by simp)
    · rename_i cr' hcr'
      split at hcs
      · exact absurd hcs (by simp)
      · rename_i he
        split at hcs
        · exact absurd hcs (by simp)
        · rename_i cs' hcs'
          rw [Option.some.injEq] at hcs
          subst hcs
          rcases List.mem_cons.mp hq with hq | hq
          · subst hq
            rw [hrec, Option.some.injEq] at hcr'
            subst hcr'
            simp [hok]
          · have := ih cs' q cr hcs' hq hrec hok
            simp [this]

theorem altLoop_char (recur : Pattern T → Reader T → Nat → Option (MRes T)) (rd : Reader T)
    (self : Pattern T) (bp : Nat) (Hrec : GoodRec rd recur) (hbp : bp ≤ rd.data.length) :
    ∀ (ps : List (Pattern T)) (pos : Nat) (cands : List (Match T)) (log : List (Mismatch T))
      (r : MRes T), CandsOK rd bp cands →
      altLoop recur rd self false bp ps pos cands log = some r → r.err = none →
      ∃ cs lp logs,
        altCandidates recur rd self bp ps = some cs ∧
        lastAttemptPos recur rd bp ps pos = some lp ∧
        ((cands ++ cs = [] ∧
            r = ⟨false, none, none, lp, log ++ logs ++ [⟨self, bp, lp, none, []⟩]⟩) ∨
         (∃ w, pickLongest (cands ++ cs) = some w ∧
            r = ⟨true, some w, none, w.End, log ++ logs⟩)) := by
  intro ps
  induction ps with
  | nil =>
    intro pos cands log r hc hrun herr
    simp only [altLoop] at hrun
    refine ⟨[], pos, [], rfl, rfl, ?_⟩
    split at hrun
    · rename_i hemp
      rw [Option.some.injEq] at hrun
      subst hrun
      left
      refine ⟨by simpa using hemp, ?_⟩
      simp
    · rename_i hemp
      have hne : cands ≠ [] := by
        intro hnil
        subst hnil
        exact hemp rfl
      have hnn : ∀ m ∈ cands, 0 ≤ mlen m := by
        intro m hm
        have h := hc m hm
        simp only [mlen, Reader.lengthI]
        omega
      obtain ⟨w, pre, post, hpk, hsplit, hmax, hpre⟩ := pickLongest_spec cands hne hnn
      have hwmem : w ∈ cands := by
        rw [hsplit]
        exact List.mem_append.mpr (Or.inr (List.mem_cons_self _ _))
      have hw := hc w hwmem
      rw [hpk] at hrun
      simp only [setPos_le rd w.End hw.2.2, Option.some.injEq] at hrun
      subst hrun
      right
      refine ⟨w, by simpa using hpk, ?_⟩
      simp
  | cons c rest ih =>
    intro pos cands log r hc hrun herr
    simp only [altLoop, setPos_le rd bp hbp] at hrun
    split at hrun
    · exact absurd hrun (by simp)
    · rename_i cr hcr
      have hinv := Hrec c bp cr hbp hcr
      split at hrun
      · rename_i he
        rw [Option.some.injEq] at hrun
        subst hrun
        rw [Option.isSome_iff_exists] at he
        obtain ⟨e, he⟩ := he
        rw [he] at herr
        exact absurd herr (by simp)
      · rename_i he
        split at hrun
        · rename_i ho
          split at hrun
          · rename_i hor
            exact absurd hor (by simp)
          · obtain ⟨-, m, hres, hB, hE, hle⟩ := hinv.2.2 ho
            have hcands : CandsOK rd bp (cands ++ [.mk self bp cr.pos none cr.res.toList]) := by
              intro x hx
              rcases List.mem_append.mp hx with hx | hx
              · exact hc x hx
              · rw [List.mem_singleton.mp hx]
                exact ⟨rfl, hle, hinv.1⟩
            obtain ⟨cs', lp, logs', hAC, hLP, hdisj⟩ := ih cr.pos _ _ r hcands hrun herr
            refine ⟨Match.mk self bp cr.pos none cr.res.toList :: cs', lp, cr.log ++ logs',
              ?_, ?_, ?_⟩
            · simp only [altCandidates, hcr]
              rw [if_neg (by simpa using he), hAC]
              simp [ho]
            · simp only [lastAttemptPos, hcr]
              rw [if_neg (by simpa using he)]
              exact hLP
            · rcases hdisj with ⟨hne, hr⟩ | ⟨w, hpk, hr⟩
              · exact absurd hne (by simp)
              · right
                refine ⟨w, ?_, ?_⟩
                · rw [← hpk]
                  congr 1
                  simp
                · rw [hr]
                  simp
        · rename_i ho
          obtain ⟨cs', lp, logs', hAC, hLP, hdisj⟩ := ih cr.pos _ _ r hc hrun herr
          refine ⟨cs', lp, cr.log ++ logs', ?_, ?_, ?_⟩
          · simp only [altCandidates, hcr]
            rw [if_neg (by simpa using he), hAC]
            simp [ho]
          · simp only [lastAttemptPos, hcr]
            rw [if_neg (by simpa using he)]
            exact hLP
          · rcases hdisj with ⟨hne, hr⟩ | ⟨w, hpk, hr⟩
            · left
              refine ⟨hne, ?_⟩
              rw [hr]
              simp
            · right
              refine ⟨w, hpk, ?_⟩
              rw [hr]
              simp

/-- C1: for every (non-orthogonal) Alternation over children ps and every
reader state, if at least one child matches when attempted from the
Alternation's start position (and the whole run completed without fuel
exhaustion or stream error), Alternation.Match succeeds and returns the
candidate of maximal consumed length Reader.Length(Begin, End); among
candidates of equal maximal length the earliest-tried one is returned: in the
candidate list every candidate listed before the winner is strictly shorter,
and no candidate anywhere is longer. -/
theorem claim_C1_alternation_longest [Inhabited T] (n : Nat) (ps : List (Pattern T))
    (rd : Reader T) (pos : Nat) (r : MRes T) (hpos : pos ≤ rd.data.length)
    (hrun : matchF (n + 1) (.Alternation false ps) rd pos = some r)
    (herr : r.err = none)
    (hsome : ∃ q ∈ ps, ∃ cr, matchF n q rd pos = some cr ∧ cr.ok = true) :
    r.ok = true ∧
    ∃ cs w pre post,
      altCandidates (fun q rr s => matchF n q rr s) rd (.Alternation false ps) pos ps =
        some cs ∧
      r.res = some w ∧ r.pos = w.End ∧ cs = pre ++ w :: post ∧
      (∀ m ∈ cs, mlen m ≤ mlen w) ∧ (∀ m ∈ pre, mlen m < mlen w) := by
  have Hrec : GoodRec rd (fun q rr s => matchF n q rr s) :=
    fun q pq rq hq hr => matchF_inv n q rd pq rq hq hr
  rw [matchF_succ] at hrun
  simp only [matchStep] at hrun
  obtain ⟨cs, lp, logs, hAC, hLP, hdisj⟩ :=
    altLoop_char _ rd _ pos Hrec hpos ps pos [] [] r (fun m hm => absurd hm (by simp)) hrun herr
  obtain ⟨q, hq, cr, hcr, hok⟩ := hsome
  have hne : cs ≠ [] := altCandidates_ne_nil _ rd _ pos ps cs q cr hAC hq hcr hok
  rcases hdisj with ⟨hnil, -⟩ | ⟨w, hpk, hr⟩
  · rw [List.nil_append] at hnil
    exact absurd hnil hne
  · rw [List.nil_append] at hpk
    have hcOK := altCandidates_candsOK _ rd _ pos Hrec hpos ps cs hAC
    have hnn : ∀ m ∈ cs, 0 ≤ mlen m := by
      intro m hm
      have h := hcOK m hm
      simp only [mlen, Reader.lengthI]
      omega
    obtain ⟨w', pre, post, hpk', hsplit, hmax, hpre⟩ := pickLongest_spec cs hne hnn
    rw [hpk, Option.some.injEq] at hpk'
    subst hpk'
    subst hr
    exact ⟨rfl, cs, _, pre, post, hAC, rfl, rfl, hsplit, hmax, hpre⟩

/-- C1 witness: Alternation(Entity a, Vector "ab") on "ab" — both children
match, the second candidate is longer (2 over 1) and is returned with the
stream at its end. -/
theorem claim_C1_alternation_longest_witness :
    ((0 : Nat) ≤ 2 ∧
     matchF 10 (.Alternation false [.Entity (fun c => c == 'a'),
        .Vector (fun a b => a == b) ['a', 'b']]) (⟨['a', 'b']⟩ : Reader Char) 0 =
       some ⟨true, some (.mk (.Alternation false [.Entity (fun c => c == 'a'),
          .Vector (fun a b => a == b) ['a', 'b']]) 0 2 none
          [.mk (.Vector (fun a b => a == b) ['a', 'b']) 0 2 (some ['a', 'b']) []]),
        none, 2, []⟩) ∧
    ((⟨true, some (.mk (.Alternation false [.Entity (fun c => c == 'a'),
          .Vector (fun a b => a == b) ['a', 'b']]) 0 2 none
          [.mk (.Vector (fun a b => a == b) ['a', 'b']) 0 2 (some ['a', 'b']) []]),
        none, 2, []⟩ : MRes Char).ok = true) := by
  refine ⟨⟨by decide, rfl⟩, ?_⟩
  exact (claim_C1_alternation_longest 9
    [.Entity (fun c => c == 'a'), .Vector (fun a b => a == b) ['a', 'b']]
    (⟨['a', 'b']⟩ : Reader Char) 0 _ (by decide) rfl rfl
    ⟨.Entity (fun c => c == 'a'), by simp,
      ⟨true, some (.mk (.Entity (fun c => c == 'a')) 0 1 (some ['a']) []), none, 1, []⟩,
      rfl, rfl⟩).1

/-- C2 counterexample: Alternation over the single child Entity(= a) run on
the input "b" from position 0: no child matches, and the reader is left at
position 1 (one token past the Alternation's start), not at the start
position 0 as the claim's failure clause requires. -/
theorem claim_C2_counterexample :
    (matchF 10 (.Alternation false [.Entity (fun c => c == 'a')])
        (⟨['b']⟩ : Reader Char) 0).map (fun r => (r.ok, r.err, r.pos)) =
      some (false, none, 1) ∧ (1 : Nat) ≠ 0 :=
  ⟨rfl, by decide⟩

/-- C2 (amended): after a (non-orthogonal) Alternation.Match returns without
a stream error, on success the reader's position equals the winning
candidate's end position; on failure (no child matched) the reader is left at
the position where the last attempted child's match left it — which equals
the Alternation's start position only when there are no children — rather
than being rewound to the Alternation's start. -/
theorem claim_C2_alternation_position [Inhabited T] (n : Nat) (ps : List (Pattern T))
    (rd : Reader T) (pos : Nat) (r : MRes T) (hpos : pos ≤ rd.data.length)
    (hrun : matchF (n + 1) (.Alternation false ps) rd pos = some r)
    (herr : r.err = none) :
    (r.ok = true → ∃ w, r.res = some w ∧ r.pos = w.End) ∧
    (r.ok = false → ∃ lp,
      lastAttemptPos (fun q rr s => matchF n q rr s) rd pos ps pos = some lp ∧
      r.pos = lp ∧ (ps = [] → r.pos = pos)) := by
  have Hrec : GoodRec rd (fun q rr s => matchF n q rr s) :=
    fun q pq rq hq hr => matchF_inv n q rd pq rq hq hr
  rw [matchF_succ] at hrun
  simp only [matchStep] at hrun
  obtain ⟨cs, lp, logs, hAC, hLP, hdisj⟩ :=
    altLoop_char _ rd _ pos Hrec hpos ps pos [] [] r (fun m hm => absurd hm (by simp)) hrun herr
  rcases hdisj with ⟨hnil, hr⟩ | ⟨w, hpk, hr⟩
  · subst hr
    refine ⟨fun hok => by simp at hok, fun _ => ⟨lp, hLP, rfl, ?_⟩⟩
    intro hps
    subst hps
    simp only [lastAttemptPos, Option.some.injEq] at hLP
    exact hLP.symm
  · subst hr
    exact ⟨fun _ => ⟨w, rfl, rfl⟩, fun hok => by simp at hok⟩

/-- C2 witness: the amended statement evaluated on Alternation(Entity a) over
"b" (failure: position 1, the spot the failing child left) and with the match
of the success side checked on Alternation(Entity a) over "a". -/
theorem claim_C2_alternation_position_witness :
    ((0 : Nat) ≤ 1 ∧
     matchF 10 (.Alternation false [.Entity (fun c => c == 'a')]) (⟨['b']⟩ : Reader Char) 0 =
       some ⟨false, none, none, 1,
        [⟨.Entity (fun c => c == 'a'), 0, 1, none, []⟩,
         ⟨.Alternation false [.Entity (fun c => c == 'a')], 0, 1, none, []⟩]⟩) ∧
    ((⟨false, none, none, 1,
        [⟨.Entity (fun c => c == 'a'), 0, 1, none, []⟩,
         ⟨.Alternation false [.Entity (fun c => c == 'a')], 0, 1, none, []⟩]⟩ : MRes Char).ok =
        false →
      ∃ lp, lastAttemptPos (fun q rr s => matchF 9 q rr s) (⟨['b']⟩ : Reader Char) 0
          [.Entity (fun c => c == 'a')] 0 = some lp ∧
        (⟨false, none, none, 1,
          [⟨.Entity (fun c => c == 'a'), 0, 1, none, []⟩,
           ⟨.Alternation false [.Entity (fun c => c == 'a')], 0, 1, none, []⟩]⟩ : MRes Char).pos =
          lp ∧
        ([.Entity (fun c => c == 'a')] = ([] : List (Pattern Char)) →
          (⟨false, none, none, 1,
            [⟨.Entity (fun c => c == 'a'), 0, 1, none, []⟩,
             ⟨.Alternation false [.Entity (fun c => c == 'a')], 0, 1, none, []⟩]⟩ :
              MRes Char).pos = 0)) := by
  refine ⟨⟨by decide, rfl⟩, ?_⟩
  exact (claim_C2_alternation_position 9 [.Entity (fun c => c == 'a')]
    (⟨['b']⟩ : Reader Char) 0 _ (by decide) rfl rfl).2

/-- C3: Exception(must, except).Match succeeds iff the except sub-pattern
fails at the Exception's start position and the must sub-pattern succeeds
from that same (unadvanced) start position; whenever except matches, the
Exception fails immediately with a logged Mismatch carrying that match as
evidence, and the result is the same for every must sub-pattern (must is
never attempted); whenever except fails, the Exception returns must's result
from the reset start position directly. -/
theorem claim_C3_exception [Inhabited T] (n : Nat) (must exc : Pattern T) (rd : Reader T)
    (pos : Nat) (er mr r : MRes T) (hpos : pos ≤ rd.data.length)
    (hexc : matchF n exc rd pos = some er) (herr : er.err = none)
    (hmust : matchF n must rd pos = some mr)
    (hrun : matchF (n + 1) (.Exception must exc) rd pos = some r) :
    (r.ok = true ↔ (er.ok = false ∧ mr.ok = true)) ∧
    (er.ok = true → ∀ must2 : Pattern T,
      matchF (n + 1) (.Exception must2 exc) rd pos =
        some ⟨false, none, none, er.pos,
          er.log ++ [⟨.Exception must2 exc, pos, er.pos, er.res, []⟩]⟩) ∧
    (er.ok = false → r = ⟨mr.ok, mr.res, mr.err, mr.pos, er.log ++ mr.log⟩) := by
  rw [matchF_succ] at hrun
  simp only [matchStep, hexc] at hrun
  rw [if_neg (by simp [herr])] at hrun
  by_cases ho : er.ok = true
  · rw [if_pos ho, Option.some.injEq] at hrun
    subst hrun
    refine ⟨?_, ?_, ?_⟩
    · constructor
      · intro h
        simp at h
      · intro h
        rw [ho] at h
        exact absurd h.1 (by simp)
    · intro _ must2
      rw [matchF_succ]
      simp only [matchStep, hexc]
      rw [if_neg (by simp [herr]), if_pos ho]
    · intro h
      rw [ho] at h
      exact absurd h (by simp)
  · rw [if_neg ho] at hrun
    simp only [setPos_le rd pos hpos, hmust, Option.some.injEq] at hrun
    subst hrun
    have hf : er.ok = false := by
      revert ho
      cases er.ok <;> simp
    refine ⟨?_, fun h => absurd h ho, fun _ => rfl⟩
    simp [hf]

/-- C3 witness: Exception(must = Vector "ab", except = Entity b) on "ab":
except fails at 0, the position is reset and must succeeds, so the Exception
succeeds with must's result. -/
theorem claim_C3_exception_witness :
    ((0 : Nat) ≤ 2 ∧
     matchF 9 (.Entity (fun c => c == 'b')) (⟨['a', 'b']⟩ : Reader Char) 0 =
       some ⟨false, none, none, 1, [⟨.Entity (fun c => c == 'b'), 0, 1, none, []⟩]⟩ ∧
     matchF 9 (.Vector (fun a b => a == b) ['a', 'b']) (⟨['a', 'b']⟩ : Reader Char) 0 =
       some ⟨true, some (.mk (.Vector (fun a b => a == b) ['a', 'b']) 0 2 (some ['a', 'b']) []),
         none, 2, []⟩ ∧
     matchF 10 (.Exception (.Vector (fun a b => a == b) ['a', 'b'])
        (.Entity (fun c => c == 'b'))) (⟨['a', 'b']⟩ : Reader Char) 0 =
       some ⟨true, some (.mk (.Vector (fun a b => a == b) ['a', 'b']) 0 2 (some ['a', 'b']) []),
         none, 2, [⟨.Entity (fun c => c == 'b'), 0, 1, none, []⟩]⟩) ∧
    ((⟨true, some (.mk (.Vector (fun a b => a == b) ['a', 'b']) 0 2 (some ['a', 'b']) []),
        none, 2, [⟨.Entity (fun c => c == 'b'), 0, 1, none, []⟩]⟩ : MRes Char).ok = true ↔
      ((⟨false, none, none, 1, [⟨.Entity (fun c => c == 'b'), 0, 1, none, []⟩]⟩ :
          MRes Char).ok = false ∧
       (⟨true, some (.mk (.Vector (fun a b => a == b) ['a', 'b']) 0 2 (some ['a', 'b']) []),
          none, 2, []⟩ : MRes Char).ok = true)) := by
  refine ⟨⟨by decide, rfl, rfl, rfl⟩, ?_⟩
  exact (claim_C3_exception 9 (.Vector (fun a b => a == b) ['a', 'b'])
    (.Entity (fun c => c == 'b')) (⟨['a', 'b']⟩ : Reader Char) 0
    ⟨false, none, none, 1, [⟨.Entity (fun c => c == 'b'), 0, 1, none, []⟩]⟩
    ⟨true, some (.mk (.Vector (fun a b => a == b) ['a', 'b']) 0 2 (some ['a', 'b']) []),
      none, 2, []⟩
    ⟨true, some (.mk (.Vector (fun a b => a == b) ['a', 'b']) 0 2 (some ['a', 'b']) []),
      none, 2, [⟨.Entity (fun c => c == 'b'), 0, 1, none, []⟩]⟩
    (by decide) (by rfl) (by rfl) (by rfl) (by rfl)).1

theorem repLoop_le (recur : Pattern T → Reader T → Nat → Option (MRes T)) (rd : Reader T)
    (c : Pattern T) (mx : Nat) (hmx : mx ≠ 0) :
    ∀ (k pos : Nat) (acc : List (Match T)) (log : List (Mismatch T)) (pos1 : Nat)
      (a1 : List (Match T)) (l1 : List (Mismatch T)),
      acc.length < mx → repLoop recur rd c mx k pos acc log = some (.done pos1 a1 l1) →
      a1.length ≤ mx := by
  intro k
  induction k with
  | zero =>
    intro pos acc log p1 a1 l1 _ hrun
    simp [repLoop] at hrun
  | succ k ih =>
    intro pos acc log p1 a1 l1 hlen hrun
    simp only [repLoop] at hrun
    split at hrun
    · rw [Option.some.injEq] at hrun
      injection hrun with h1 h2 h3
      subst h2
      exact le_of_lt hlen
    · split at hrun
      · exact absurd hrun (by simp)
      · rename_i cr hcr
        split at hrun
        · rw [Option.some.injEq] at hrun
          exact absurd hrun (by simp)
        · split at hrun
          · split at hrun
            · rename_i hbreak
              rw [Option.some.injEq] at hrun
              injection hrun with h1 h2 h3
              subst h2
              exact le_of_eq hbreak.2
            · rename_i hbreak
              have htl : cr.res.toList.length ≤ 1 := by
                cases cr.res <;> simp
              have hne : (acc ++ cr.res.toList).length ≠ mx := fun heq => hbreak ⟨hmx, heq⟩
              have hlt : (acc ++ cr.res.toList).length < mx := by
                rw [List.length_append] at hne ⊢
                omega
              exact ih cr.pos _ _ p1 a1 l1 hlt hrun
          · split at hrun
            · rw [Option.some.injEq] at hrun
              exact absurd hrun (by simp)
            · rw [Option.some.injEq] at hrun
              injection hrun with h1 h2 h3
              subst h2
              exact le_of_lt hlen

/-- C4: whenever Repetition(P, min, max).Match succeeds, the component count
c of the returned Match satisfies min ≤ c, and c ≤ max whenever max ≠ 0
(max = 0 means unbounded, so only min ≤ c is guaranteed there). -/
theorem claim_C4_repetition_bounds [Inhabited T] (n : Nat) (c : Pattern T) (mn mx : Nat)
    (rd : Reader T) (pos : Nat) (r : MRes T) (m : Match T)
    (hrun : matchF (n + 1) (.Repetition c mn mx) rd pos = some r)
    (hok : r.ok = true) (hres : r.res = some m) :
    mn ≤ m.components.length ∧ (mx ≠ 0 → m.components.length ≤ mx) := by
  rw [matchF_succ] at hrun
  simp only [matchStep] at hrun
  split at hrun
  · exact absurd hrun (by simp)
  · rename_i pos1 e log hrep
    rw [Option.some.injEq] at hrun
    subst hrun
    simp at hok
  · rename_i pos1 acc log hrep
    split at hrun
    · rw [Option.some.injEq] at hrun
      subst hrun
      simp at hok
    · rename_i hmin
      rw [Option.some.injEq] at hrun
      subst hrun
      rw [Option.some.injEq] at hres
      subst hres
      constructor
      · simpa [Match.components] using Nat.not_lt.mp hmin
      · intro hmx
        have h0 : ([] : List (Match T)).length < mx := by
          simp
          omega
        simpa [Match.components] using repLoop_le _ rd c mx hmx n pos [] [] pos1 acc log h0 hrep

/-- C4 witness: Repetition(Entity a, 1, 2) on "aaa" matches twice (capped by
max = 2), and 1 ≤ 2 ≤ 2. -/
theorem claim_C4_repetition_bounds_witness :
    (matchF 10 (.Repetition (.Entity (fun ch => ch == 'a')) 1 2)
        (⟨['a', 'a', 'a']⟩ : Reader Char) 0 =
      some ⟨true, some (.mk (.Repetition (.Entity (fun ch => ch == 'a')) 1 2) 0 2 none
        [.mk (.Entity (fun ch => ch == 'a')) 0 1 (some ['a']) [],
         .mk (.Entity (fun ch => ch == 'a')) 1 2 (some ['a']) []]), none, 2, []⟩) ∧
    (1 ≤ (Match.mk (.Repetition (.Entity (fun ch => ch == 'a')) 1 2) 0 2 none
        [.mk (.Entity (fun ch => ch == 'a')) 0 1 (some ['a']) [],
         .mk (.Entity (fun ch => ch == 'a')) 1 2 (some ['a']) []] : Match Char).components.length ∧
      ((2 : Nat) ≠ 0 →
        (Match.mk (.Repetition (.Entity (fun ch => ch == 'a')) 1 2) 0 2 none
          [.mk (.Entity (fun ch => ch == 'a')) 0 1 (some ['a']) [],
           .mk (.Entity (fun ch => ch == 'a')) 1 2 (some ['a']) []] :
            Match Char).components.length ≤ 2)) := by
  refine ⟨by rfl, ?_⟩
  exact claim_C4_repetition_bounds 9 (.Entity (fun ch => ch == 'a')) 1 2
    (⟨['a', 'a', 'a']⟩ : Reader Char) 0
    ⟨true, some (.mk (.Repetition (.Entity (fun ch => ch == 'a')) 1 2) 0 2 none
      [.mk (.Entity (fun ch => ch == 'a')) 0 1 (some ['a']) [],
       .mk (.Entity (fun ch => ch == 'a')) 1 2 (some ['a']) []]), none, 2, []⟩
    (.mk (.Repetition (.Entity (fun ch => ch == 'a')) 1 2) 0 2 none
      [.mk (.Entity (fun ch => ch == 'a')) 0 1 (some ['a']) [],
       .mk (.Entity (fun ch => ch == 'a')) 1 2 (some ['a']) []])
    (by rfl) rfl rfl

theorem repLoop_err_isSome (recur : Pattern T → Reader T → Nat → Option (MRes T))
    (rd : Reader T) (c : Pattern T) (mx : Nat) :
    ∀ (k pos : Nat) (acc : List (Match T)) (log : List (Mismatch T)) (p1 : Nat)
      (e : Option Err) (l1 : List (Mismatch T)),
      repLoop recur rd c mx k pos acc log = some (.errStop p1 e l1) → e.isSome = true := by
  intro k
  induction k with
  | zero =>
    intro pos acc log p1 e l1 hrun
    simp [repLoop] at hrun
  | succ k ih =>
    intro pos acc log p1 e l1 hrun
    simp only [repLoop] at hrun
    split at hrun
    · rw [Option.some.injEq] at hrun
      exact absurd hrun (by simp)
    · split at hrun
      · exact absurd hrun (by simp)
      · rename_i cr hcr
        split at hrun
        · rename_i he
          rw [Option.some.injEq] at hrun
          injection hrun with h1 h2 h3
          subst h2
          exact he
        · split at hrun
          · split at hrun
            · rw [Option.some.injEq] at hrun
              exact absurd hrun (by simp)
            · exact ih cr.pos _ _ p1 e l1 hrun
          · split at hrun
            · rw [Option.some.injEq] at hrun
              injection hrun with h1 h2 h3
              subst h2
              rfl
            · rw [Option.some.injEq] at hrun
              exact absurd hrun (by simp)

/-- Position alignment of the Repetition loop: the cursor sits at the end of
the last accumulated match, or at a designated start position when nothing
has been accumulated. -/
def alignPos (bp : Nat) (acc : List (Match T)) (q : Nat) : Prop :=
  match acc.getLast? with
  | none => q = bp
  | some m => q = m.End

theorem repLoop_last (recur : Pattern T → Reader T → Nat → Option (MRes T)) (rd : Reader T)
    (c : Pattern T) (mx : Nat) (Hrec : GoodRec rd recur) (bp : Nat) :
    ∀ (k pos : Nat) (acc : List (Match T)) (log : List (Mismatch T)) (pos1 : Nat)
      (a1 : List (Match T)) (l1 : List (Mismatch T)),
      pos ≤ rd.data.length → alignPos bp acc pos →
      repLoop recur rd c mx k pos acc log = some (.done pos1 a1 l1) →
      alignPos bp a1 pos1 := by
  intro k
  induction k with
  | zero =>
    intro pos acc log p1 a1 l1 _ _ hrun
    simp [repLoop] at hrun
  | succ k ih =>
    intro pos acc log p1 a1 l1 hp hal hrun
    simp only [repLoop] at hrun
    split at hrun
    · rw [Option.some.injEq] at hrun
      injection hrun with h1 h2 h3
      subst h1
      subst h2
      exact hal
    · split at hrun
      · exact absurd hrun (by simp)
      · rename_i cr hcr
        have hinv := Hrec c pos cr hp hcr
        split at hrun
        · exact absurd hrun (by simp)
        · split at hrun
          · rename_i ho
            obtain ⟨-, m, hres, hB, hE, hle⟩ := hinv.2.2 ho
            have htl : cr.res.toList = [m] := by
              rw [hres]
              rfl
            have hal2 : alignPos bp (acc ++ cr.res.toList) cr.pos := by
              rw [htl]
              simp only [alignPos, List.getLast?_concat]
              exact hE.symm
            split at hrun
            · rw [Option.some.injEq] at hrun
              injection hrun with h1 h2 h3
              subst h1
              subst h2
              exact hal2
            · exact ih cr.pos _ _ p1 a1 l1 hinv.1 hal2 hrun
          · rw [setPos_le rd pos hp] at hrun
            rw [Option.some.injEq] at hrun
            injection hrun with h1 h2 h3
            subst h1
            subst h2
            exact hal

/-- C5 counterexample: Repetition(Entity a, min 2, max 0) on "ab" collects a
single child match (too few) and fails with the reader at position 1, the end
of that first match — not restored to the Repetition's start position 0 as
the claim requires. -/
theorem claim_C5_counterexample :
    (matchF 10 (.Repetition (.Entity (fun ch => ch == 'a')) 2 0)
        (⟨['a', 'b']⟩ : Reader Char) 0).map (fun r => (r.ok, r.err, r.pos)) =
      some (false, none, 1) ∧ (1 : Nat) ≠ 0 :=
  ⟨rfl, by decide⟩

/-- C5 (amended): when Repetition.Match accumulates fewer than min child
matches (without a stream error), it fails and logs a Mismatch carrying the
accumulated (too-few) child matches, and the reader is left at the end of the
last successful child match — equal to the Repetition's start position only
when no child matched at all; the final failed attempt itself is rewound, but
the reader is not restored to the Repetition's own start. -/
theorem claim_C5_repetition_failure [Inhabited T] (n : Nat) (c : Pattern T) (mn mx : Nat)
    (rd : Reader T) (pos : Nat) (r : MRes T) (hpos : pos ≤ rd.data.length)
    (hrun : matchF (n + 1) (.Repetition c mn mx) rd pos = some r)
    (herr : r.err = none) (hfail : r.ok = false) :
    ∃ acc lg,
      repLoop (fun q rr s => matchF n q rr s) rd c mx n pos [] [] =
        some (.done r.pos acc lg) ∧
      acc.length < mn ∧
      r.log = lg ++ [⟨.Repetition c mn mx, pos, r.pos, none, acc⟩] ∧
      ((acc = [] ∧ r.pos = pos) ∨ (∃ m, acc.getLast? = some m ∧ r.pos = m.End)) := by
  have Hrec : GoodRec rd (fun q rr s => matchF n q rr s) :=
    fun q pq rq hq hr => matchF_inv n q rd pq rq hq hr
  rw [matchF_succ] at hrun
  simp only [matchStep] at hrun
  split at hrun
  · exact absurd hrun (by simp)
  · rename_i pos1 e log hrep
    have hesome := repLoop_err_isSome _ rd c mx n pos [] [] pos1 e log hrep
    rw [Option.some.injEq] at hrun
    subst hrun
    have he2 : e = none := herr
    rw [he2] at hesome
    simp at hesome
  · rename_i pos1 acc log hrep
    split at hrun
    · rename_i hmin
      rw [Option.some.injEq] at hrun
      subst hrun
      have hlast := repLoop_last _ rd c mx Hrec pos n pos [] [] pos1 acc log hpos rfl hrep
      refine ⟨acc, log, hrep, hmin, rfl, ?_⟩
      revert hlast
      simp only [alignPos]
      cases hacc : acc.getLast? with
      | none =>
        intro h
        left
        refine ⟨?_, h⟩
        cases acc with
        | nil => rfl
        | cons x xs => simp at hacc
      | some m =>
        intro h
        right
        exact ⟨m, rfl, h⟩
    · rename_i hmin
      rw [Option.some.injEq] at hrun
      subst hrun
      simp at hfail

/-- C5 witness: the amended statement on Repetition(Entity a, 2, 0) over
"ab": the loop collected one match ending at 1, the Mismatch carries it, the
reader is at 1. -/
theorem claim_C5_repetition_failure_witness :
    ((0 : Nat) ≤ 2 ∧
     matchF 10 (.Repetition (.Entity (fun ch => ch == 'a')) 2 0)
        (⟨['a', 'b']⟩ : Reader Char) 0 =
       some ⟨false, none, none, 1,
        [⟨.Entity (fun ch => ch == 'a'), 1, 2, none, []⟩,
         ⟨.Repetition (.Entity (fun ch => ch == 'a')) 2 0, 0, 1, none,
          [.mk (.Entity (fun ch => ch == 'a')) 0 1 (some ['a']) []]⟩]⟩) ∧
    (∃ acc lg,
      repLoop (fun q rr s => matchF 9 q rr s) (⟨['a', 'b']⟩ : Reader Char)
          (.Entity (fun ch => ch == 'a')) 0 9 0 [] [] =
        some (.done (⟨false, none, none, 1,
          [⟨.Entity (fun ch => ch == 'a'), 1, 2, none, []⟩,
           ⟨.Repetition (.Entity (fun ch => ch == 'a')) 2 0, 0, 1, none,
            [.mk (.Entity (fun ch => ch == 'a')) 0 1 (some ['a']) []]⟩]⟩ : MRes Char).pos acc lg) ∧
      acc.length < 2 ∧
      (⟨false, none, none, 1,
        [⟨.Entity (fun ch => ch == 'a'), 1, 2, none, []⟩,
         ⟨.Repetition (.Entity (fun ch => ch == 'a')) 2 0, 0, 1, none,
          [.mk (.Entity (fun ch => ch == 'a')) 0 1 (some ['a']) []]⟩]⟩ : MRes Char).log =
        lg ++ [⟨.Repetition (.Entity (fun ch => ch == 'a')) 2 0, 0,
          (⟨false, none, none, 1,
            [⟨.Entity (fun ch => ch == 'a'), 1, 2, none, []⟩,
             ⟨.Repetition (.Entity (fun ch => ch == 'a')) 2 0, 0, 1, none,
              [.mk (.Entity (fun ch => ch == 'a')) 0 1 (some ['a']) []]⟩]⟩ : MRes Char).pos,
          none, acc⟩] ∧
      ((acc = [] ∧ (⟨false, none, none, 1,
          [⟨.Entity (fun ch => ch == 'a'), 1, 2, none, []⟩,
           ⟨.Repetition (.Entity (fun ch => ch == 'a')) 2 0, 0, 1, none,
            [.mk (.Entity (fun ch => ch == 'a')) 0 1 (some ['a']) []]⟩]⟩ : MRes Char).pos = 0) ∨
       (∃ m, acc.getLast? = some m ∧ (⟨false, none, none, 1,
          [⟨.Entity (fun ch => ch == 'a'), 1, 2, none, []⟩,
           ⟨.Repetition (.Entity (fun ch => ch == 'a')) 2 0, 0, 1, none,
            [.mk (.Entity (fun ch => ch == 'a')) 0 1 (some ['a']) []]⟩]⟩ : MRes Char).pos =
          m.End))) := by
  refine ⟨⟨by decide, by rfl⟩, ?_⟩
  exact claim_C5_repetition_failure 9 (.Entity (fun ch => ch == 'a')) 2 0
    (⟨['a', 'b']⟩ : Reader Char) 0
    ⟨false, none, none, 1,
      [⟨.Entity (fun ch => ch == 'a'), 1, 2, none, []⟩,
       ⟨.Repetition (.Entity (fun ch => ch == 'a')) 2 0, 0, 1, none,
        [.mk (.Entity (fun ch => ch == 'a')) 0 1 (some ['a']) []]⟩]⟩
    (by decide) (by rfl) rfl rfl

/-- C6: whenever a child's Match call returns a (stream) error, every
composite — Concatenation, Alternation, Repetition, Exception — returns
(false, nil, that same error) immediately: each loop-level statement holds at
an arbitrary loop state and is independent of the remaining children (they
are never tried), and the emitted Mismatch log is exactly what was already
logged plus the erroring child's own log — the composite logs nothing for the
error. -/
theorem claim_C6_stream_error_propagation [Inhabited T] (n : Nat) (rd : Reader T) (e : Err)
    (_he : e.isStream = true) :
    (∀ (c : Pattern T) (pos : Nat) (cr : MRes T),
      matchF n c rd pos = some cr → cr.err = some e →
      ∀ (self : Pattern T) (bp : Nat) (rest : List (Pattern T)) (acc : List (Match T))
        (log : List (Mismatch T)),
        concatLoop (fun q rr s => matchF n q rr s) rd self bp (c :: rest) pos acc log =
          some ⟨false, none, some e, cr.pos, log ++ cr.log⟩) ∧
    (∀ (c : Pattern T) (pos : Nat) (cr : MRes T),
      matchF n c rd pos = some cr → cr.err = some e →
      ∀ rest : List (Pattern T),
        matchF (n + 1) (.Concatenation (c :: rest)) rd pos =
          some ⟨false, none, some e, cr.pos, cr.log⟩) ∧
    (∀ (c : Pattern T) (bp : Nat) (cr : MRes T), bp ≤ rd.data.length →
      matchF n c rd bp = some cr → cr.err = some e →
      ∀ (self : Pattern T) (ortho : Bool) (rest : List (Pattern T)) (pos : Nat)
        (cands : List (Match T)) (log : List (Mismatch T)),
        altLoop (fun q rr s => matchF n q rr s) rd self ortho bp (c :: rest) pos cands log =
          some ⟨false, none, some e, cr.pos, log ++ cr.log⟩) ∧
    (∀ (c : Pattern T) (pos : Nat) (cr : MRes T), pos ≤ rd.data.length →
      matchF n c rd pos = some cr → cr.err = some e →
      ∀ (ortho : Bool) (rest : List (Pattern T)),
        matchF (n + 1) (.Alternation ortho (c :: rest)) rd pos =
          some ⟨false, none, some e, cr.pos, cr.log⟩) ∧
    (∀ (c : Pattern T) (pos : Nat) (cr : MRes T), rd.finished pos = false →
      matchF n c rd pos = some cr → cr.err = some e →
      ∀ (mx k : Nat) (acc : List (Match T)) (log : List (Mismatch T)),
        repLoop (fun q rr s => matchF n q rr s) rd c mx (k + 1) pos acc log =
          some (.errStop cr.pos (some e) (log ++ cr.log))) ∧
    (∀ (c : Pattern T) (pos : Nat) (cr : MRes T) (mn mx : Nat), rd.finished pos = false →
      matchF (n + 1) c rd pos = some cr → cr.err = some e →
      matchF (n + 2) (.Repetition c mn mx) rd pos =
        some ⟨false, none, some e, cr.pos, cr.log⟩) ∧
    (∀ (exc : Pattern T) (pos : Nat) (er : MRes T),
      matchF n exc rd pos = some er → er.err = some e →
      ∀ must : Pattern T,
        matchF (n + 1) (.Exception must exc) rd pos =
          some ⟨false, none, some e, er.pos, er.log⟩) := by
  have hconcat : ∀ (c : Pattern T) (pos : Nat) (cr : MRes T),
      matchF n c rd pos = some cr → cr.err = some e →
      ∀ (self : Pattern T) (bp : Nat) (rest : List (Pattern T)) (acc : List (Match T))
        (log : List (Mismatch T)),
        concatLoop (fun q rr s => matchF n q rr s) rd self bp (c :: rest) pos acc log =
          some ⟨false, none, some e, cr.pos, log ++ cr.log⟩ := by
    intro c pos cr hc hce self bp rest acc log
    simp [concatLoop, hc, hce]
  have halt : ∀ (c : Pattern T) (bp : Nat) (cr : MRes T), bp ≤ rd.data.length →
      matchF n c rd bp = some cr → cr.err = some e →
      ∀ (self : Pattern T) (ortho : Bool) (rest : List (Pattern T)) (pos : Nat)
        (cands : List (Match T)) (log : List (Mismatch T)),
        altLoop (fun q rr s => matchF n q rr s) rd self ortho bp (c :: rest) pos cands log =
          some ⟨false, none, some e, cr.pos, log ++ cr.log⟩ := by
    intro c bp cr hbp hc hce self ortho rest pos cands log
    simp [altLoop, setPos_le rd bp hbp, hc, hce]
  have hrep : ∀ (c : Pattern T) (pos : Nat) (cr : MRes T), rd.finished pos = false →
      matchF n c rd pos = some cr → cr.err = some e →
      ∀ (mx k : Nat) (acc : List (Match T)) (log : List (Mismatch T)),
        repLoop (fun q rr s => matchF n q rr s) rd c mx (k + 1) pos acc log =
          some (.errStop cr.pos (some e) (log ++ cr.log)) := by
    intro c pos cr hfin hc hce mx k acc log
    simp [repLoop, hfin, hc, hce]
  refine ⟨hconcat, ?_, halt, ?_, hrep, ?_, ?_⟩
  · intro c pos cr hc hce rest
    rw [matchF_succ]
    simp only [matchStep]
    simpa using hconcat c pos cr hc hce (.Concatenation (c :: rest)) pos rest [] []
  · intro c pos cr hpos hc hce ortho rest
    rw [matchF_succ]
    simp only [matchStep]
    simpa using halt c pos cr hpos hc hce (.Alternation ortho (c :: rest)) ortho rest pos [] []
  · intro c pos cr mn mx hfin hc hce
    rw [matchF_succ]
    simp only [matchStep]
    have hrep2 : ∀ (acc : List (Match T)) (log : List (Mismatch T)),
        repLoop (fun q rr s => matchF (n + 1) q rr s) rd c mx (n + 1) pos acc log =
          some (.errStop cr.pos (some e) (log ++ cr.log)) := by
      intro acc log
      simp [repLoop, hfin, hc, hce]
    rw [hrep2 [] []]
    simp
  · intro exc pos er hexc hee must
    rw [matchF_succ]
    simp only [matchStep, hexc]
    rw [if_pos (by simp [hee])]
    rw [hee]

/-- C6 witness: Entity(any) on an empty reader hits the Range bounds check
and returns a stream error; Concatenation over it propagates that same error
with no Mismatch logged. -/
theorem claim_C6_stream_error_propagation_witness :
    ((Err.rangeErr 0 0).isStream = true ∧
     matchF 9 (.Entity (fun _ => true)) (⟨[]⟩ : Reader Char) 0 =
       some ⟨false, none, some (.rangeErr 0 0), 0, []⟩) ∧
    matchF 10 (.Concatenation [.Entity (fun _ => true)]) (⟨[]⟩ : Reader Char) 0 =
      some ⟨false, none, some (.rangeErr 0 0), 0, []⟩ := by
  refine ⟨⟨rfl, by rfl⟩, ?_⟩
  exact (claim_C6_stream_error_propagation 9 (⟨[]⟩ : Reader Char) (.rangeErr 0 0) rfl).2.1
    (.Entity (fun _ => true)) 0 ⟨false, none, some (.rangeErr 0 0), 0, []⟩ (by rfl) rfl []

/-- C7: when a child of a Concatenation fails as an ordinary mismatch, the
Concatenation fails with the reader left exactly where the failing child left
it (no rewind to the Concatenation's start), and the logged Mismatch carries
the failing child's empty match attempt (spanning the child's attempt) along
with the list of child matches collected so far, in order; the outcome is
independent of the remaining children. -/
theorem claim_C7_concatenation_failure [Inhabited T] (n : Nat) (c : Pattern T) (rd : Reader T)
    (pos : Nat) (cr : MRes T)
    (hc : matchF n c rd pos = some cr) (herr : cr.err = none) (hfail : cr.ok = false) :
    (∀ (self : Pattern T) (bp : Nat) (rest : List (Pattern T)) (acc : List (Match T))
        (log : List (Mismatch T)),
      concatLoop (fun q rr s => matchF n q rr s) rd self bp (c :: rest) pos acc log =
        some ⟨false, none, none, cr.pos,
          log ++ cr.log ++ [⟨self, bp, cr.pos, some (.mk c pos cr.pos none []), acc⟩]⟩) ∧
    (∀ rest : List (Pattern T),
      matchF (n + 1) (.Concatenation (c :: rest)) rd pos =
        some ⟨false, none, none, cr.pos,
          cr.log ++ [⟨.Concatenation (c :: rest), pos, cr.pos,
            some (.mk c pos cr.pos none []), []⟩]⟩) := by
  have hloop : ∀ (self : Pattern T) (bp : Nat) (rest : List (Pattern T))
      (acc : List (Match T)) (log : List (Mismatch T)),
      concatLoop (fun q rr s => matchF n q rr s) rd self bp (c :: rest) pos acc log =
        some ⟨false, none, none, cr.pos,
          log ++ cr.log ++ [⟨self, bp, cr.pos, some (.mk c pos cr.pos none []), acc⟩]⟩ := by
    intro self bp rest acc log
    simp [concatLoop, hc, herr, hfail]
  refine ⟨hloop, ?_⟩
  intro rest
  rw [matchF_succ]
  simp only [matchStep]
  simpa using hloop (.Concatenation (c :: rest)) pos rest [] []

/-- C7 witness: Concatenation(Entity b) on "ab": the child consumes the
mismatching token 'a' and fails at position 1; the Concatenation fails there
with the Mismatch carrying the child's empty attempt spanning 0..1 and the
(empty) list of collected matches. -/
theorem claim_C7_concatenation_failure_witness :
    (matchF 9 (.Entity (fun ch => ch == 'b')) (⟨['a', 'b']⟩ : Reader Char) 0 =
      some ⟨false, none, none, 1, [⟨.Entity (fun ch => ch == 'b'), 0, 1, none, []⟩]⟩) ∧
    matchF 10 (.Concatenation [.Entity (fun ch => ch == 'b')]) (⟨['a', 'b']⟩ : Reader Char) 0 =
      some ⟨false, none, none, 1,
        [⟨.Entity (fun ch => ch == 'b'), 0, 1, none, []⟩] ++
          [⟨.Concatenation [.Entity (fun ch => ch == 'b')], 0, 1,
            some (.mk (.Entity (fun ch => ch == 'b')) 0 1 none []), []⟩]⟩ := by
  refine ⟨by rfl, ?_⟩
  exact (claim_C7_concatenation_failure 9 (.Entity (fun ch => ch == 'b'))
    (⟨['a', 'b']⟩ : Reader Char) 0
    ⟨false, none, none, 1, [⟨.Entity (fun ch => ch == 'b'), 0, 1, none, []⟩]⟩
    (by rfl) rfl rfl).2 []

/-- C8: one step of the Scan driver: when the reader reports finished, Scan
terminates with the accumulated results; otherwise Scan records the position
and attempts the root pattern — on success the Match is appended and scanning
continues from the match's end; on failure the reader is reset to the
recorded position, exactly one token is skipped (discarded), and scanning
retries from the next token. -/
theorem claim_C8_scan_step [Inhabited T] (mf k : Nat) (p : Pattern T) (rd : Reader T)
    (pos : Nat) (acc : List (Match T)) :
    (rd.finished pos = true → scanF mf p rd (k + 1) pos acc = some (.ok acc, pos)) ∧
    (∀ r : MRes T, rd.finished pos = false → matchF mf p rd pos = some r → r.err = none →
      r.ok = true →
      scanF mf p rd (k + 1) pos acc = scanF mf p rd k r.pos (acc ++ r.res.toList)) ∧
    (∀ r : MRes T, rd.finished pos = false → matchF mf p rd pos = some r → r.err = none →
      r.ok = false → scanF mf p rd (k + 1) pos acc = scanF mf p rd k (pos + 1) acc) := by
  refine ⟨?_, ?_, ?_⟩
  · intro hfin
    simp [scanF, hfin]
  · intro r hfin hm herr hok
    simp [scanF, hfin, hm, herr, hok]
  · intro r hfin hm herr hok
    have hlt : pos < rd.data.length := by
      simp [Reader.finished] at hfin
      omega
    simp [scanF, hfin, hm, herr, hok, setPos_le rd pos (le_of_lt hlt), Reader.skip1, hlt]

/-- C8 witness: scanning "ab" with the root Vector "ab" from position 0: the
reader is not finished, the root matches ending at 2, and the scan step
appends that match and continues from position 2. -/
theorem claim_C8_scan_step_witness :
    ((⟨['a', 'b']⟩ : Reader Char).finished 0 = false ∧
     matchF 10 (.Vector (fun a b => a == b) ['a', 'b']) (⟨['a', 'b']⟩ : Reader Char) 0 =
       some ⟨true, some (.mk (.Vector (fun a b => a == b) ['a', 'b']) 0 2 (some ['a', 'b']) []),
         none, 2, []⟩) ∧
    scanF 10 (.Vector (fun a b => a == b) ['a', 'b']) (⟨['a', 'b']⟩ : Reader Char) (4 + 1) 0 [] =
      scanF 10 (.Vector (fun a b => a == b) ['a', 'b']) (⟨['a', 'b']⟩ : Reader Char) 4
        (⟨true, some (.mk (.Vector (fun a b => a == b) ['a', 'b']) 0 2 (some ['a', 'b']) []),
          none, 2, []⟩ : MRes Char).pos
        ([] ++ (⟨true, some (.mk (.Vector (fun a b => a == b) ['a', 'b']) 0 2
          (some ['a', 'b']) []), none, 2, []⟩ : MRes Char).res.toList) := by
  refine ⟨⟨rfl, by rfl⟩, ?_⟩
  exact (claim_C8_scan_step 10 4 (.Vector (fun a b => a == b) ['a', 'b'])
    (⟨['a', 'b']⟩ : Reader Char) 0 []).2.1
    ⟨true, some (.mk (.Vector (fun a b => a == b) ['a', 'b']) 0 2 (some ['a', 'b']) []),
      none, 2, []⟩ rfl (by rfl) rfl rfl

/-- C9 counterexample: Entity with an always-false predicate run at the end
of an empty stream: Read1 returns io.EOF without consuming, the Entity fails
with the reader still at position 0 — it neither consumed a token nor is it
one token past its start, contradicting the claim's universal reading. -/
theorem claim_C9_counterexample :
    (matchF 10 (.Entity (fun _ => false)) (⟨[]⟩ : Reader Char) 0).map
      (fun r => (r.ok, r.err, r.pos)) = some (false, none, 0) ∧ (0 : Nat) ≠ 0 + 1 :=
  ⟨rfl, by decide⟩

/-- C9 (amended): for every reader state with at least one remaining token,
Entity.Match consumes exactly that one token (the cursor ends one past the
start in both branches) and succeeds iff the predicate holds for it; on
success the match's value is the captured single-token range, and on failure
the consumed token is not rewound.  (At an exhausted reader, Read1 consumes
nothing: the cursor stays at the start and the Entity fails — or returns the
Range stream error when the predicate accepts the zero token.) -/
theorem claim_C9_entity [Inhabited T] (n : Nat) (f : T → Bool) (rd : Reader T) (pos : Nat)
    (h : pos < rd.data.length) :
    matchF (n + 1) (.Entity f) rd pos =
      some (if f (rd.data.get ⟨pos, h⟩) then
          ⟨true, some (.mk (.Entity f) pos (pos + 1) (some [rd.data.get ⟨pos, h⟩]) []), none,
            pos + 1, []⟩
        else ⟨false, none, none, pos + 1, [⟨.Entity f, pos, pos + 1, none, []⟩]⟩) := by
  rw [matchF_succ]
  simp only [matchStep, read1_lt rd pos h, isStreamError_none, Bool.false_eq_true, if_false]
  have hr : rd.rangeVal pos (pos + 1) = .ok [rd.data.get ⟨pos, h⟩] := by
    rw [rangeVal_ok rd pos (pos + 1) h h]
    rw [Nat.add_sub_cancel_left]
    rw [List.take_one_drop_eq_of_lt_length h]
  rw [hr]
  split
  · rfl
  · rfl

/-- C9 witness: Entity(= a) on "ab" at position 0: the predicate holds for
the token 'a', one token is consumed and captured. -/
theorem claim_C9_entity_witness :
    ((0 : Nat) < 2 ∧ (['a', 'b'] : List Char).length = 2) ∧
    matchF 10 (.Entity (fun ch => ch == 'a')) (⟨['a', 'b']⟩ : Reader Char) 0 =
      some (if (('a' : Char) == 'a') then
          ⟨true, some (.mk (.Entity (fun ch => ch == 'a')) 0 1 (some ['a']) []), none, 1, []⟩
        else ⟨false, none, none, 1, [⟨.Entity (fun ch => ch == 'a'), 0, 1, none, []⟩]⟩) := by
  refine ⟨⟨by decide, rfl⟩, ?_⟩
  exact claim_C9_entity 9 (fun ch => ch == 'a') (⟨['a', 'b']⟩ : Reader Char) 0 (by decide)

/-- C10: with the reader already exhausted, Repetition.Match never attempts
its child (the result is the same for every child pattern): it succeeds iff
min = 0, in which case it returns a zero-width Match with an empty components
list, and otherwise fails logging a Mismatch; in particular
Repetition(End, 1, 0) fails at end of input even though its child End
matches there. -/
theorem claim_C10_repetition_at_eof [Inhabited T] (n : Nat) (rd : Reader T) (pos : Nat)
    (hfin : rd.finished pos = true) :
    (∀ (c : Pattern T) (mn mx : Nat),
      matchF (n + 2) (.Repetition c mn mx) rd pos =
        some (if mn = 0 then
            ⟨true, some (.mk (.Repetition c mn mx) pos pos none []), none, pos, []⟩
          else ⟨false, none, none, pos, [⟨.Repetition c mn mx, pos, pos, none, []⟩]⟩)) ∧
    (∀ c : Pattern T, matchF (n + 2) (.Repetition c 1 0) rd pos =
      some ⟨false, none, none, pos, [⟨.Repetition c 1 0, pos, pos, none, []⟩]⟩) ∧
    matchF (n + 1) (.End : Pattern T) rd pos =
      some ⟨true, some (.mk .End pos pos none []), none, pos, []⟩ := by
  have hmain : ∀ (c : Pattern T) (mn mx : Nat),
      matchF (n + 2) (.Repetition c mn mx) rd pos =
        some (if mn = 0 then
            ⟨true, some (.mk (.Repetition c mn mx) pos pos none []), none, pos, []⟩
          else ⟨false, none, none, pos, [⟨.Repetition c mn mx, pos, pos, none, []⟩]⟩) := by
    intro c mn mx
    rw [matchF_succ]
    simp only [matchStep, repLoop, hfin, if_true]
    cases mn with
    | zero => simp
    | succ m => simp
  refine ⟨hmain, ?_, ?_⟩
  · intro c
    rw [hmain c 1 0]
    simp
  · rw [matchF_succ]
    simp [matchStep, hfin]

/-- C10 witness: on an empty reader, Repetition(End, 1, 0) fails with a
zero-width Mismatch while the child End alone matches. -/
theorem claim_C10_repetition_at_eof_witness :
    ((⟨[]⟩ : Reader Char).finished 0 = true) ∧
    matchF 10 (.Repetition .End 1 0) (⟨[]⟩ : Reader Char) 0 =
      some ⟨false, none, none, 0, [⟨.Repetition .End 1 0, 0, 0, none, []⟩]⟩ ∧
    matchF 9 (.End : Pattern Char) (⟨[]⟩ : Reader Char) 0 =
      some ⟨true, some (.mk .End 0 0 none []), none, 0, []⟩ := by
  refine ⟨rfl, ?_, ?_⟩
  · exact (claim_C10_repetition_at_eof 8 (⟨[]⟩ : Reader Char) 0 rfl).2.1 .End
  · exact (claim_C10_repetition_at_eof 8 (⟨[]⟩ : Reader Char) 0 rfl).2.2

end Exbana
